import Mathlib

/-
  Verification of the PageRank implementation (pagerank.py).

  The source is embedded shallowly:
  * a corpus (Python dict mapping page to set of linked pages) is an
    association list `List (Node × Finset Node)` whose keys are distinct,
    as Python dict keys necessarily are;
  * floating point values are modelled by exact rationals;
  * the global pseudorandom generator is modelled by an explicit stream
    `us : ℕ → ℚ` of draws of random.random together with an index `s`
    standing for the draw made by random.choice of the start page;
  * the while loop of iterate_pagerank is given explicit fuel and returns
    `none` when the fuel is exhausted;
  * operations of the source that raise (random.choice on an empty list,
    division by a zero sample count) are modelled by `Option`.
  Every dict built by the source ranges over the corpus keys, so the
  lookups the source performs never raise KeyError; the embedding uses a
  defaulting lookup `getv`, whose default is never reached under the key
  invariants stated as hypotheses of the theorems.
-/

namespace Pagerank

abbrev Node := ℕ

/-- A corpus: association list from page to its set of outbound links. -/
abbrev Corpus := List (Node × Finset Node)

/-- A rank vector or probability distribution, as the source builds it:
a dict from page to rational value. -/
abbrev RankList := List (Node × ℚ)

/-- The list of pages of the corpus, `list(corpus.keys())`. -/
def keys (corpus : Corpus) : List Node := corpus.map Prod.fst

/-- Lookup in an association list with a default value. -/
def getv {β : Type} : List (Node × β) → Node → β → β
  | [], _, d => d
  | (a, b) :: t, k, d => if k = a then b else getv t k d

/-- The node set of the corpus as a finite set, `set(corpus.keys())`. -/
def keysFinset (corpus : Corpus) : Finset Node := (keys corpus).toFinset

/-- transition_model (pagerank.py lines 51-72).
`N = len(corpus)`, `links = corpus[page]`; if `links` is non-empty the
first loop gives every page the base probability `(1 - d) / N` and the
second loop adds `d / len(links)` to the entry of every link (each dict
key occurs once, so the per-link increments are one pass over the
entries); otherwise every page receives `1 / N`. -/
def transition_model (corpus : Corpus) (page : Node) (d : ℚ) : RankList :=
  let N : ℚ := corpus.length
  let links := getv corpus page ∅
  if links ≠ ∅ then
    let base := corpus.map (fun e => (e.1, (1 - d) / N))
    base.map (fun e =>
      if e.1 ∈ links then (e.1, e.2 + d / (links.card : ℚ)) else e)
  else
    corpus.map (fun e => (e.1, 1 / N))

/-- One iteration of the cumulative-weight accumulation used by
random.choices (`itertools.accumulate(weights)`). -/
def cumWeights : List ℚ → ℚ → List ℚ
  | [], _ => []
  | w :: t, acc => (acc + w) :: cumWeights t (acc + w)

/-- The index chosen by random.choices for a uniform draw `u`:
`bisect.bisect(cum_weights, u * total, 0, len(weights) - 1)`, i.e. the
number of cumulative weights among the first `len - 1` that do not
exceed `u * total`. -/
def weightedIndex (ws : List ℚ) (u : ℚ) : ℕ :=
  let cum := cumWeights ws 0
  let total := ws.sum
  (cum.take (ws.length - 1)).countP (fun c => decide (c ≤ u * total))

/-- `random.choices(population=list(probs.keys()), weights=list(probs.values()), k=1)[0]`. -/
def choicesDraw (probs : RankList) (u : ℚ) : Node :=
  (probs.map Prod.fst).getD (weightedIndex (probs.map Prod.snd) u) 0

/-- `counts[page] += 1` on the dict of visit counters. -/
def incr (counts : List (Node × ℕ)) (page : Node) : List (Node × ℕ) :=
  counts.map (fun e => if e.1 = page then (e.1, e.2 + 1) else e)

/-- The sampling loop of sample_pagerank (lines 87-94): at each step,
increment the counter of the current page, compute the transition model,
and draw the next page from it; `i` indexes the stream of uniform
draws. -/
def walk (corpus : Corpus) (d : ℚ) (us : ℕ → ℚ) :
    ℕ → ℕ → Node → List (Node × ℕ) → List (Node × ℕ)
  | 0, _, _, counts => counts
  | steps + 1, i, page, counts =>
      let counts' := incr counts page
      let probs := transition_model corpus page d
      let page' := choicesDraw probs (us i)
      walk corpus d us steps (i + 1) page' counts'

/-- sample_pagerank (pagerank.py lines 75-97). `random.choice(pages)`
raises IndexError on an empty corpus (modelled by `none`); the start page
is `pages[s mod N]`; after the loop `count / n` raises ZeroDivisionError
when `n = 0` (modelled by `none`). -/
def sample_pagerank (corpus : Corpus) (d : ℚ) (n : ℕ) (s : ℕ) (us : ℕ → ℚ) :
    Option RankList :=
  if corpus.isEmpty then none
  else
    let counts0 : List (Node × ℕ) := corpus.map (fun e => (e.1, 0))
    let pages := keys corpus
    let start := pages.getD (s % pages.length) 0
    let counts := walk corpus d us n 0 start counts0
    if n = 0 then none
    else some (counts.map (fun e => (e.1, (e.2 : ℚ) / (n : ℚ))))

/-- The dangling-node loop of iterate_pagerank (lines 112-114): every
page whose outbound set is empty has it replaced, in place, by the full
node set `set(corpus.keys())`. -/
def normalize (corpus : Corpus) : Corpus :=
  corpus.map (fun e => if e.2 = ∅ then (e.1, keysFinset corpus) else e)

/-- The inner accumulation of one sweep (lines 120-123): sum over the
entries `(i, out_i)` of the corpus of `pagerank[i] / len(corpus[i])`
whenever `page ∈ corpus[i]`. -/
def linkTotal (corpus' : Corpus) (pagerank : RankList) (page : Node) : ℚ :=
  (corpus'.map (fun e =>
    if page ∈ e.2 then getv pagerank e.1 0 / (e.2.card : ℚ) else 0)).sum

/-- `new_rank = (1 - damping_factor) / N + damping_factor * total` (line 124). -/
def newRank (corpus' : Corpus) (N : ℕ) (d : ℚ) (pagerank : RankList)
    (page : Node) : ℚ :=
  (1 - d) / (N : ℚ) + d * linkTotal corpus' pagerank page

/-- One sweep of the while loop: the fresh dict `new_ranks`, holding the
new rank of every page, computed from the previous sweep only. -/
def sweep (corpus' : Corpus) (N : ℕ) (d : ℚ) (pagerank : RankList) : RankList :=
  corpus'.map (fun e => (e.1, newRank corpus' N d pagerank e.1))

/-- The convergence flag of one sweep: `converge` stays True exactly when
no page moved by more than 0.001 (lines 126-127). -/
def sweepConverged (corpus' : Corpus) (N : ℕ) (d : ℚ) (pagerank : RankList) :
    Bool :=
  corpus'.all (fun e =>
    decide (|newRank corpus' N d pagerank e.1 - getv pagerank e.1 0| ≤ 1 / 1000))

/-- The while loop of iterate_pagerank (lines 116-129), with fuel: each
round computes the fresh sweep and returns it when the convergence flag
held, otherwise replaces `pagerank` and continues. -/
def iterLoop (corpus' : Corpus) (N : ℕ) (d : ℚ) :
    ℕ → RankList → Option RankList
  | 0, _ => none
  | fuel + 1, pagerank =>
      let new_ranks := sweep corpus' N d pagerank
      if sweepConverged corpus' N d pagerank then some new_ranks
      else iterLoop corpus' N d fuel new_ranks

/-- iterate_pagerank (pagerank.py lines 100-131). `N = len(corpus)`;
ranks start at `1 / N`; the dangling-node normalization rewrites the
corpus in place before the loop, so the call returns both the corpus
value the caller is left holding and the rank dict. -/
def iterate_pagerank (corpus : Corpus) (d : ℚ) (fuel : ℕ) :
    Option (Corpus × RankList) :=
  let N := corpus.length
  let pagerank0 : RankList := corpus.map (fun e => (e.1, 1 / (N : ℚ)))
  let corpus' := normalize corpus
  (iterLoop corpus' N d fuel pagerank0).map (fun r => (corpus', r))

/-- The sequence of rank dicts the while loop runs through: entry 0 is
the initialization `1 / N`, entry `k + 1` is the sweep applied to entry
`k`. -/
def rankSeq (corpus : Corpus) (d : ℚ) : ℕ → RankList
  | 0 => corpus.map (fun e => (e.1, 1 / (corpus.length : ℚ)))
  | k + 1 => sweep (normalize corpus) corpus.length d (rankSeq corpus d k)

/-- The update formula as the specification states it: sum over the nodes
`q` of the graph whose normalized outbound set contains `p` of
`rank q / card (out q)`, damped. This definition follows the wording of
the specification, to be compared with the sweep of the source. -/
def specNewRank (corpus' : Corpus) (N : ℕ) (d : ℚ) (rank : Node → ℚ)
    (p : Node) : ℚ :=
  (1 - d) / (N : ℚ) +
    d * Finset.sum (keysFinset corpus') (fun q =>
      if p ∈ getv corpus' q ∅ then rank q / ((getv corpus' q ∅).card : ℚ) else 0)

/-! ### Association-list lemmas -/

theorem getv_map_key {γ : Type} (l : List (Node × Finset Node)) (g : Node → γ)
    (p : Node) (dg : γ) (hp : p ∈ l.map Prod.fst) :
    getv (l.map (fun e => (e.1, g e.1))) p dg = g p := by
  induction l with
  | nil => simp at hp
  | cons e t ih =>
      simp only [List.map_cons, getv]
      by_cases h : p = e.1
      · simp [h]
      · simp only [if_neg h]
        apply ih
        simp only [List.map_cons, List.mem_cons] at hp
        exact hp.resolve_left h

theorem getv_rank_map_key (l : RankList) (g : Node → ℚ) (p : Node) (dg : ℚ)
    (hp : p ∈ l.map Prod.fst) :
    getv (l.map (fun e => (e.1, g e.1))) p dg = g p := by
  induction l with
  | nil => simp at hp
  | cons e t ih =>
      simp only [List.map_cons, getv]
      by_cases h : p = e.1
      · simp [h]
      · simp only [if_neg h]
        apply ih
        simp only [List.map_cons, List.mem_cons] at hp
        exact hp.resolve_left h

theorem map_fst_map {β γ : Type} (l : List (Node × β)) (g : Node × β → Node × γ)
    (h : ∀ e, (g e).1 = e.1) : (l.map g).map Prod.fst = l.map Prod.fst := by
  induction l with
  | nil => rfl
  | cons e t ih => simp [h, ih]

theorem getv_eq_of_mem {β : Type} (l : List (Node × β)) (a : Node) (b : β)
    (d : β) (hn : (l.map Prod.fst).Nodup) (hm : (a, b) ∈ l) :
    getv l a d = b := by
  induction l with
  | nil => simp at hm
  | cons e t ih =>
      simp only [List.map_cons, List.nodup_cons] at hn
      rcases List.mem_cons.mp hm with h | h
      · simp [getv, ← h]
      · have ha : a ≠ e.1 := by
          intro hae
          exact hn.1 (hae ▸ List.mem_map.mpr ⟨(a, b), h, rfl⟩)
        simpa [getv, ha] using ih hn.2 h

theorem list_getD_mem {α : Type} (l : List α) (i : ℕ) (d : α)
    (h : i < l.length) : l.getD i d ∈ l := by
  induction l generalizing i with
  | nil => simp at h
  | cons a t ih =>
      cases i with
      | zero => simp [List.getD]
      | succ j =>
          simp only [List.getD_cons_succ]
          exact List.mem_cons_of_mem a (ih j (Nat.lt_of_succ_lt_succ h))

theorem sum_map_cst {α : Type} (l : List α) (c : ℚ) :
    (l.map (fun _ => c)).sum = (l.length : ℚ) * c := by
  induction l with
  | nil => simp
  | cons a t ih => simp [ih]; ring

/-! ### Key sets of the derived dicts -/

theorem keys_normalize (corpus : Corpus) :
    keys (normalize corpus) = keys corpus := by
  apply map_fst_map
  intro e
  by_cases h : e.2 = ∅ <;> simp [h]

theorem length_normalize (corpus : Corpus) :
    (normalize corpus).length = corpus.length := by
  simp [normalize]

theorem keys_transition_model (corpus : Corpus) (page : Node) (d : ℚ) :
    (transition_model corpus page d).map Prod.fst = keys corpus := by
  unfold transition_model
  by_cases h : getv corpus page ∅ ≠ ∅
  · simp only [if_pos h]
    rw [map_fst_map _ _ (by intro e; by_cases he : e.1 ∈ getv corpus page ∅ <;> simp [he])]
    exact map_fst_map _ _ (fun e => rfl)
  · simp only [if_neg h]
    exact map_fst_map _ _ (fun e => rfl)

theorem length_transition_model (corpus : Corpus) (page : Node) (d : ℚ) :
    (transition_model corpus page d).length = corpus.length := by
  have h := congrArg List.length (keys_transition_model corpus page d)
  simpa [keys] using h

theorem keys_sweep (corpus' : Corpus) (N : ℕ) (d : ℚ) (pr : RankList) :
    (sweep corpus' N d pr).map Prod.fst = keys corpus' := by
  exact map_fst_map _ _ (fun e => rfl)

theorem keys_incr (counts : List (Node × ℕ)) (page : Node) :
    (incr counts page).map Prod.fst = counts.map Prod.fst := by
  apply map_fst_map
  intro e
  by_cases h : e.1 = page <;> simp [h]

theorem keys_walk (corpus : Corpus) (d : ℚ) (us : ℕ → ℚ) :
    ∀ steps i page counts,
      (walk corpus d us steps i page counts).map Prod.fst = counts.map Prod.fst := by
  intro steps
  induction steps with
  | zero => intro i page counts; rfl
  | succ k ih =>
      intro i page counts
      simp only [walk]
      rw [ih, keys_incr]

/-! ### The transition model in closed form -/

theorem getv_default_or_mem {β : Type} (l : List (Node × β)) (a : Node) (d : β) :
    getv l a d = d ∨ (a, getv l a d) ∈ l := by
  induction l with
  | nil => left; rfl
  | cons e t ih =>
      by_cases h : a = e.1
      · right
        simp [getv, h]
      · rcases ih with h' | h'
        · left; simpa [getv, h] using h'
        · right
          simp only [getv, if_neg h]
          exact List.mem_cons_of_mem e h'

theorem transition_model_eq (corpus : Corpus) (page : Node) (d : ℚ) :
    transition_model corpus page d =
      if getv corpus page ∅ = ∅ then
        corpus.map (fun e => (e.1, 1 / (corpus.length : ℚ)))
      else
        corpus.map (fun e => (e.1, (1 - d) / (corpus.length : ℚ) +
          if e.1 ∈ getv corpus page ∅ then
            d / ((getv corpus page ∅).card : ℚ) else 0)) := by
  by_cases h : getv corpus page ∅ = ∅
  · simp [transition_model, h]
  · simp only [transition_model, if_neg h, ne_eq, not_false_eq_true, if_pos,
      List.map_map]
    rw [if_pos h]
    apply List.map_congr_left
    intro e _
    by_cases he : e.1 ∈ getv corpus page ∅ <;> simp [he]

/-! ### Sum helpers -/

theorem sum_map_add_q {α : Type} (l : List α) (f g : α → ℚ) :
    (l.map (fun a => f a + g a)).sum = (l.map f).sum + (l.map g).sum := by
  induction l with
  | nil => simp
  | cons a t ih => simp [ih]; ring

theorem sum_map_ite_mem (l : List Node) (links : Finset Node) (c : ℚ) :
    (l.map (fun a => if a ∈ links then c else 0)).sum =
      ((l.countP (fun a => decide (a ∈ links))) : ℚ) * c := by
  induction l with
  | nil => simp
  | cons a t ih =>
      by_cases h : a ∈ links
      · simp only [List.map_cons, List.sum_cons, if_pos h, List.countP_cons, ih]
        simp [h]
        ring
      · simp [List.countP_cons, h, ih]

theorem countP_mem_eq_card (l : List Node) (links : Finset Node)
    (hn : l.Nodup) (hsub : links ⊆ l.toFinset) :
    l.countP (fun a => decide (a ∈ links)) = links.card := by
  rw [List.countP_eq_length_filter]
  have hfn : (l.filter (fun a => decide (a ∈ links))).Nodup := hn.filter _
  rw [← List.toFinset_card_of_nodup hfn, List.toFinset_filter]
  have : l.toFinset.filter (fun a => a ∈ links) = links := by
    rw [Finset.filter_mem_eq_inter]
    exact Finset.inter_eq_right.mpr hsub
  simpa using congrArg Finset.card this

theorem length_pos_of_mem_keys (corpus : Corpus) (page : Node)
    (hpage : page ∈ keys corpus) : 0 < corpus.length := by
  cases corpus with
  | nil => simp [keys] at hpage
  | cons e t => simp

theorem links_subset (corpus : Corpus) (page : Node)
    (hsub : ∀ e ∈ corpus, e.2 ⊆ keysFinset corpus) :
    getv corpus page ∅ ⊆ keysFinset corpus := by
  rcases getv_default_or_mem corpus page (∅ : Finset Node) with h | h
  · rw [h]; exact Finset.empty_subset _
  · exact hsub _ h

/-- Claim C2: for every graph, every node of the graph and every damping
factor d in the unit interval, transition_model returns a distribution
over the full node set such that, if the outbound set of the node is
non-empty with size k, every node receives (1 - d) / N plus an extra
d / k for every node in the outbound set, and if the outbound set is
empty every node receives exactly 1 / N. -/
theorem transition_model_spec (corpus : Corpus) (page q : Node) (d : ℚ)
    (hpage : page ∈ keys corpus) (hq : q ∈ keys corpus)
    (hd0 : 0 ≤ d) (hd1 : d ≤ 1) :
    (transition_model corpus page d).map Prod.fst = keys corpus ∧
    getv (transition_model corpus page d) q 0 =
      (if getv corpus page ∅ = ∅ then 1 / (corpus.length : ℚ)
       else (1 - d) / (corpus.length : ℚ) +
         (if q ∈ getv corpus page ∅ then
            d / ((getv corpus page ∅).card : ℚ) else 0)) := by
  refine ⟨keys_transition_model corpus page d, ?_⟩
  rw [transition_model_eq]
  by_cases h : getv corpus page ∅ = ∅
  · rw [if_pos h, if_pos h]
    exact getv_map_key corpus (fun _ => 1 / (corpus.length : ℚ)) q 0 hq
  · rw [if_neg h, if_neg h]
    exact getv_map_key corpus
      (fun a => (1 - d) / (corpus.length : ℚ) +
        if a ∈ getv corpus page ∅ then
          d / ((getv corpus page ∅).card : ℚ) else 0) q 0 hq

/-- Witness for transition_model_spec at a concrete two-page corpus. -/
theorem transition_model_spec_witness :
    ((0 : Node) ∈ keys [(0, ({1} : Finset Node)), (1, (∅ : Finset Node))] ∧
     (1 : Node) ∈ keys [(0, ({1} : Finset Node)), (1, (∅ : Finset Node))] ∧
     (0 : ℚ) ≤ 17 / 20 ∧ (17 / 20 : ℚ) ≤ 1) ∧
    ((transition_model [(0, ({1} : Finset Node)), (1, (∅ : Finset Node))] 0
        (17 / 20)).map Prod.fst =
      keys [(0, ({1} : Finset Node)), (1, (∅ : Finset Node))] ∧
     getv (transition_model [(0, ({1} : Finset Node)), (1, (∅ : Finset Node))]
        0 (17 / 20)) 1 0 =
      (if getv [(0, ({1} : Finset Node)), (1, (∅ : Finset Node))] 0 ∅ = ∅ then
         1 / (([(0, ({1} : Finset Node)), (1, (∅ : Finset Node))] :
            Corpus).length : ℚ)
       else (1 - 17 / 20) / (([(0, ({1} : Finset Node)),
            (1, (∅ : Finset Node))] : Corpus).length : ℚ) +
         (if 1 ∈ getv [(0, ({1} : Finset Node)), (1, (∅ : Finset Node))] 0 ∅
          then (17 / 20) /
            ((getv [(0, ({1} : Finset Node)), (1, (∅ : Finset Node))]
              0 ∅).card : ℚ) else 0))) :=
  ⟨⟨by decide, by decide, by norm_num, by norm_num⟩,
   transition_model_spec _ 0 1 (17 / 20) (by decide) (by decide)
     (by norm_num) (by norm_num)⟩

/-- Claim C5: for every graph satisfying the reference invariant, every
node of the graph and every damping factor in the unit interval, the
distribution returned by transition_model sums exactly to 1 over the
rationals and is non-negative everywhere. -/
theorem transition_model_sum_one_nonneg (corpus : Corpus) (page : Node)
    (d : ℚ) (hn : (keys corpus).Nodup)
    (hsub : ∀ e ∈ corpus, e.2 ⊆ keysFinset corpus)
    (hpage : page ∈ keys corpus) (hd0 : 0 ≤ d) (hd1 : d ≤ 1) :
    ((transition_model corpus page d).map Prod.snd).sum = 1 ∧
    ∀ e ∈ transition_model corpus page d, 0 ≤ e.2 := by
  have hN : (0 : ℚ) < (corpus.length : ℚ) := by
    exact_mod_cast length_pos_of_mem_keys corpus page hpage
  rw [transition_model_eq]
  by_cases h : getv corpus page ∅ = ∅
  · rw [if_pos h]
    constructor
    · rw [List.map_map]
      have : ((fun e => Prod.snd e) ∘ fun (e : Node × Finset Node) =>
          (e.1, 1 / (corpus.length : ℚ))) =
          fun _ => 1 / (corpus.length : ℚ) := rfl
      rw [this, sum_map_cst]
      field_simp
    · intro e he
      rcases List.mem_map.mp he with ⟨x, _, rfl⟩
      positivity
  · rw [if_neg h]
    have hlsub : getv corpus page ∅ ⊆ keysFinset corpus :=
      links_subset corpus page hsub
    have hcard : (0 : ℚ) < ((getv corpus page ∅).card : ℚ) := by
      exact_mod_cast Finset.card_pos.mpr (Finset.nonempty_iff_ne_empty.mpr h)
    constructor
    · rw [List.map_map]
      have : ((fun e => Prod.snd e) ∘ fun (e : Node × Finset Node) =>
          (e.1, (1 - d) / (corpus.length : ℚ) +
            if e.1 ∈ getv corpus page ∅ then
              d / ((getv corpus page ∅).card : ℚ) else 0)) =
          (fun (a : Node) => (1 - d) / (corpus.length : ℚ) +
            if a ∈ getv corpus page ∅ then
              d / ((getv corpus page ∅).card : ℚ) else 0) ∘ Prod.fst := rfl
      rw [this, ← List.map_map, sum_map_add_q, sum_map_cst, sum_map_ite_mem,
        countP_mem_eq_card _ _ (by simpa [keys] using hn)
          (by simpa [keysFinset] using hlsub)]
      have hklen : ((corpus.map Prod.fst).length : ℚ) = (corpus.length : ℚ) := by
        simp
      rw [hklen]
      field_simp
    · intro e he
      rcases List.mem_map.mp he with ⟨x, _, rfl⟩
      have h1 : (0 : ℚ) ≤ (1 - d) / (corpus.length : ℚ) := by
        apply div_nonneg (by linarith) (le_of_lt hN)
      have h2 : (0 : ℚ) ≤ (if x.1 ∈ getv corpus page ∅ then
          d / ((getv corpus page ∅).card : ℚ) else 0) := by
        by_cases hx : x.1 ∈ getv corpus page ∅
        · simpa [hx] using div_nonneg hd0 (le_of_lt hcard)
        · simp [hx]
      exact add_nonneg h1 h2

/-- Witness for transition_model_sum_one_nonneg at a concrete corpus. -/
theorem transition_model_sum_one_nonneg_witness :
    ((keys [(0, ({1} : Finset Node)), (1, (∅ : Finset Node))]).Nodup ∧
     (∀ e ∈ ([(0, ({1} : Finset Node)), (1, (∅ : Finset Node))] : Corpus),
        e.2 ⊆ keysFinset [(0, ({1} : Finset Node)), (1, (∅ : Finset Node))]) ∧
     (0 : Node) ∈ keys [(0, ({1} : Finset Node)), (1, (∅ : Finset Node))] ∧
     (0 : ℚ) ≤ 17 / 20 ∧ (17 / 20 : ℚ) ≤ 1) ∧
    (((transition_model [(0, ({1} : Finset Node)), (1, (∅ : Finset Node))] 0
        (17 / 20)).map Prod.snd).sum = 1 ∧
     ∀ e ∈ transition_model [(0, ({1} : Finset Node)), (1, (∅ : Finset Node))]
        0 (17 / 20), 0 ≤ e.2) :=
  ⟨⟨by decide, by decide, by decide, by norm_num, by norm_num⟩,
   transition_model_sum_one_nonneg _ 0 (17 / 20) (by decide) (by decide)
     (by decide) (by norm_num) (by norm_num)⟩

/-! ### The while loop of the iterative solver -/

theorem rankSeq_eq_iterate (corpus : Corpus) (d : ℚ) (k : ℕ) :
    rankSeq corpus d k =
      (sweep (normalize corpus) corpus.length d)^[k]
        (corpus.map (fun e => (e.1, 1 / (corpus.length : ℚ)))) := by
  induction k with
  | zero => rfl
  | succ m ih => rw [Function.iterate_succ_apply', ← ih]; rfl

theorem iterLoop_some (c' : Corpus) (N : ℕ) (d : ℚ) :
    ∀ fuel pr r, iterLoop c' N d fuel pr = some r →
      ∃ k, k < fuel ∧
        r = (sweep c' N d)^[k + 1] pr ∧
        sweepConverged c' N d ((sweep c' N d)^[k] pr) = true ∧
        ∀ j < k, sweepConverged c' N d ((sweep c' N d)^[j] pr) = false := by
  intro fuel
  induction fuel with
  | zero => intro pr r h; simp [iterLoop] at h
  | succ m ih =>
      intro pr r h
      simp only [iterLoop] at h
      by_cases hc : sweepConverged c' N d pr = true
      · rw [if_pos hc] at h
        refine ⟨0, Nat.succ_pos m, ?_, ?_, ?_⟩
        · simpa [sweep] using (Option.some.injEq _ _ ▸ h).symm
        · simpa using hc
        · intro j hj; omega
      · rw [if_neg hc] at h
        rcases ih (sweep c' N d pr) r h with ⟨k, hk, hr, hcv, hnc⟩
        refine ⟨k + 1, Nat.succ_lt_succ hk, ?_, ?_, ?_⟩
        · rw [hr, ← Function.iterate_succ_apply]
        · rw [← Function.iterate_succ_apply] at hcv
          exact hcv
        · intro j hj
          cases j with
          | zero => simpa using Bool.eq_false_iff.mpr hc
          | succ i =>
              rw [Function.iterate_succ_apply]
              exact hnc i (Nat.lt_of_succ_lt_succ hj)

theorem getv_sweep (c' : Corpus) (N : ℕ) (d : ℚ) (pr : RankList) (p : Node)
    (hp : p ∈ keys c') :
    getv (sweep c' N d pr) p 0 = newRank c' N d pr p :=
  getv_map_key c' (newRank c' N d pr) p 0 hp

theorem sweepConverged_iff (c' : Corpus) (N : ℕ) (d : ℚ) (pr : RankList) :
    sweepConverged c' N d pr = true ↔
      ∀ p ∈ keys c', |getv (sweep c' N d pr) p 0 - getv pr p 0| ≤ 1 / 1000 := by
  unfold sweepConverged
  rw [List.all_eq_true]
  constructor
  · intro h p hp
    rcases List.mem_map.mp hp with ⟨e, he, rfl⟩
    rw [getv_sweep c' N d pr e.1 (List.mem_map.mpr ⟨e, he, rfl⟩)]
    exact of_decide_eq_true (h e he)
  · intro h e he
    apply decide_eq_true
    have hp : e.1 ∈ keys c' := List.mem_map.mpr ⟨e, he, rfl⟩
    have := h e.1 hp
    rwa [getv_sweep c' N d pr e.1 hp] at this

theorem assoc_sum_eq_finset (l : Corpus) (F : Node → Finset Node → ℚ)
    (hn : (keys l).Nodup) :
    (l.map (fun e => F e.1 e.2)).sum =
      Finset.sum (keysFinset l) (fun q => F q (getv l q ∅)) := by
  induction l with
  | nil => simp [keysFinset, keys]
  | cons e t ih =>
      simp only [keys, List.map_cons, List.nodup_cons] at hn
      have hnotin : e.1 ∉ keysFinset t := by
        simp only [keysFinset, keys, List.mem_toFinset]
        exact hn.1
      have hins : keysFinset (e :: t) = insert e.1 (keysFinset t) := by
        simp [keysFinset, keys]
      rw [List.map_cons, List.sum_cons, hins, Finset.sum_insert hnotin]
      have hhead : getv (e :: t) e.1 ∅ = e.2 := by
        cases e; simp [getv]
      have htail : Finset.sum (keysFinset t) (fun q => F q (getv (e :: t) q ∅)) =
          Finset.sum (keysFinset t) (fun q => F q (getv t q ∅)) := by
        apply Finset.sum_congr rfl
        intro q hq
        have hq' : q ≠ e.1 := by
          intro hqe
          apply hn.1
          subst hqe
          simpa [keysFinset, keys] using hq
        cases e
        simp [getv, hq']
      rw [hhead, htail, ih hn.2]

theorem newRank_eq_spec (c' : Corpus) (N : ℕ) (d : ℚ) (pr : RankList)
    (p : Node) (hn : (keys c').Nodup) :
    newRank c' N d pr p = specNewRank c' N d (fun q => getv pr q 0) p := by
  unfold newRank specNewRank linkTotal
  congr 1
  congr 1
  exact assoc_sum_eq_finset c'
    (fun q s => if p ∈ s then getv pr q 0 / (s.card : ℚ) else 0) hn

theorem keys_rankSeq (corpus : Corpus) (d : ℚ) (k : ℕ) :
    (rankSeq corpus d k).map Prod.fst = keys corpus := by
  cases k with
  | zero => exact map_fst_map _ _ (fun e => rfl)
  | succ m => rw [rankSeq, keys_sweep, keys_normalize]

/-- Claim C1: for every non-empty graph satisfying the reference
invariant and damping factor in the unit interval, whenever the
iterative solver returns, it has replaced every dangling outbound set by
the full node set once before iterating (the sweeps below read the
normalized corpus), initialized every rank to 1 / N, computed each sweep
from the previous sweep only through the damped-sum update formula, and
returned the first member of the sweep sequence whose maximum absolute
change from its predecessor is at most the tolerance 0.001. -/
theorem iterate_pagerank_first_convergent (corpus : Corpus) (d : ℚ)
    (fuel : ℕ) (c' : Corpus) (r : RankList)
    (hn : (keys corpus).Nodup) (hsub : ∀ e ∈ corpus, e.2 ⊆ keysFinset corpus)
    (hne : corpus ≠ []) (hd0 : 0 ≤ d) (hd1 : d ≤ 1)
    (h : iterate_pagerank corpus d fuel = some (c', r)) :
    (∀ p ∈ keys corpus,
      getv (rankSeq corpus d 0) p 0 = 1 / (corpus.length : ℚ)) ∧
    (∀ j : ℕ, ∀ p ∈ keys corpus,
      getv (rankSeq corpus d (j + 1)) p 0 =
        specNewRank (normalize corpus) corpus.length d
          (fun q => getv (rankSeq corpus d j) q 0) p) ∧
    ∃ k : ℕ, r = rankSeq corpus d (k + 1) ∧
      (∀ p ∈ keys corpus,
        |getv (rankSeq corpus d (k + 1)) p 0 -
          getv (rankSeq corpus d k) p 0| ≤ 1 / 1000) ∧
      ∀ j < k, ∃ p ∈ keys corpus,
        1 / 1000 < |getv (rankSeq corpus d (j + 1)) p 0 -
          getv (rankSeq corpus d j) p 0| := by
  have hn' : (keys (normalize corpus)).Nodup := by
    rw [keys_normalize]; exact hn
  have hkeys' : keys (normalize corpus) = keys corpus := keys_normalize corpus
  -- unpack the returned option
  unfold iterate_pagerank at h
  rcases Option.map_eq_some'.mp h with ⟨r0, hloop, hpair⟩
  have hr0 : r0 = r := (Prod.mk.injEq _ _ _ _ ▸ hpair).2
  rw [hr0] at hloop
  rcases iterLoop_some (normalize corpus) corpus.length d fuel _ r hloop with
    ⟨k, _, hr, hcv, hnc⟩
  have hseq := rankSeq_eq_iterate corpus d
  refine ⟨?_, ?_, k, ?_, ?_, ?_⟩
  · intro p hp
    exact getv_map_key corpus (fun _ => 1 / (corpus.length : ℚ)) p 0 hp
  · intro j p hp
    have hp' : p ∈ keys (normalize corpus) := hkeys' ▸ hp
    rw [rankSeq, getv_sweep _ _ _ _ p hp',
      newRank_eq_spec _ _ _ _ p hn']
  · rw [hr, ← hseq]
  · intro p hp
    have hp' : p ∈ keys (normalize corpus) := hkeys' ▸ hp
    have := (sweepConverged_iff (normalize corpus) corpus.length d
      (rankSeq corpus d k)).mp (by rw [hseq]; exact hcv) p hp'
    rwa [show sweep (normalize corpus) corpus.length d (rankSeq corpus d k) =
      rankSeq corpus d (k + 1) from rfl] at this
  · intro j hj
    have hfalse := hnc j hj
    rw [← hseq] at hfalse
    by_contra hcon
    push_neg at hcon
    have : sweepConverged (normalize corpus) corpus.length d
        (rankSeq corpus d j) = true := by
      rw [sweepConverged_iff]
      intro p hp'
      have hp : p ∈ keys corpus := hkeys' ▸ hp'
      have := hcon p hp
      rwa [show sweep (normalize corpus) corpus.length d (rankSeq corpus d j) =
        rankSeq corpus d (j + 1) from rfl]
    rw [hfalse] at this
    exact Bool.false_ne_true this

/-- Witness for iterate_pagerank_first_convergent on the one-page corpus
with a self link. -/
theorem iterate_pagerank_first_convergent_witness :
    ((keys [(0, ({0} : Finset Node))]).Nodup ∧
     (∀ e ∈ ([(0, ({0} : Finset Node))] : Corpus),
        e.2 ⊆ keysFinset [(0, ({0} : Finset Node))]) ∧
     ([(0, ({0} : Finset Node))] : Corpus) ≠ [] ∧
     (0 : ℚ) ≤ 17 / 20 ∧ (17 / 20 : ℚ) ≤ 1 ∧
     iterate_pagerank [(0, ({0} : Finset Node))] (17 / 20) 1 =
       some ([(0, ({0} : Finset Node))], [(0, 1)])) ∧
    ((∀ p ∈ keys [(0, ({0} : Finset Node))],
      getv (rankSeq [(0, ({0} : Finset Node))] (17 / 20) 0) p 0 =
        1 / (([(0, ({0} : Finset Node))] : Corpus).length : ℚ)) ∧
    (∀ j : ℕ, ∀ p ∈ keys [(0, ({0} : Finset Node))],
      getv (rankSeq [(0, ({0} : Finset Node))] (17 / 20) (j + 1)) p 0 =
        specNewRank (normalize [(0, ({0} : Finset Node))])
          ([(0, ({0} : Finset Node))] : Corpus).length (17 / 20)
          (fun q => getv (rankSeq [(0, ({0} : Finset Node))] (17 / 20) j) q 0) p) ∧
    ∃ k : ℕ, [(0, (1 : ℚ))] = rankSeq [(0, ({0} : Finset Node))] (17 / 20) (k + 1) ∧
      (∀ p ∈ keys [(0, ({0} : Finset Node))],
        |getv (rankSeq [(0, ({0} : Finset Node))] (17 / 20) (k + 1)) p 0 -
          getv (rankSeq [(0, ({0} : Finset Node))] (17 / 20) k) p 0| ≤ 1 / 1000) ∧
      ∀ j < k, ∃ p ∈ keys [(0, ({0} : Finset Node))],
        1 / 1000 < |getv (rankSeq [(0, ({0} : Finset Node))] (17 / 20) (j + 1)) p 0 -
          getv (rankSeq [(0, ({0} : Finset Node))] (17 / 20) j) p 0|) :=
  ⟨⟨by decide, by decide, by decide, by norm_num, by norm_num, by
      norm_num [iterate_pagerank, iterLoop, sweep, sweepConverged, newRank,
        linkTotal, normalize, keysFinset, keys, getv]⟩,
   iterate_pagerank_first_convergent _ (17 / 20) 1 [(0, ({0} : Finset Node))]
     [(0, (1 : ℚ))] (by decide) (by decide)
     (by decide) (by norm_num) (by norm_num) (by
      norm_num [iterate_pagerank, iterLoop, sweep, sweepConverged, newRank,
        linkTotal, normalize, keysFinset, keys, getv])⟩

/-! ### The sampling estimator -/

theorem weightedIndex_lt (ws : List ℚ) (u : ℚ) (h : ws ≠ []) :
    weightedIndex ws u < ws.length := by
  simp only [weightedIndex]
  have h1 : ((cumWeights ws 0).take (ws.length - 1)).countP
      (fun c => decide (c ≤ u * ws.sum)) ≤
      ((cumWeights ws 0).take (ws.length - 1)).length :=
    List.countP_le_length _
  have h2 : ((cumWeights ws 0).take (ws.length - 1)).length ≤ ws.length - 1 :=
    le_trans (List.length_take_le _ _) le_rfl
  have h3 : 0 < ws.length := List.length_pos.mpr h
  omega

theorem choicesDraw_mem (corpus : Corpus) (page : Node) (d : ℚ) (u : ℚ)
    (hne : corpus ≠ []) :
    choicesDraw (transition_model corpus page d) u ∈ keys corpus := by
  unfold choicesDraw
  rw [keys_transition_model]
  apply list_getD_mem
  have hlen : ((transition_model corpus page d).map Prod.snd).length =
      corpus.length := by
    simp [length_transition_model]
  have hws : (transition_model corpus page d).map Prod.snd ≠ [] := by
    intro hnil
    rw [hnil] at hlen
    exact hne (List.length_eq_zero.mp hlen.symm)
  have := weightedIndex_lt ((transition_model corpus page d).map Prod.snd) u hws
  rw [hlen] at this
  simpa [keys] using this

theorem incr_not_mem (counts : List (Node × ℕ)) (page : Node)
    (h : page ∉ counts.map Prod.fst) : incr counts page = counts := by
  induction counts with
  | nil => rfl
  | cons e t ih =>
      simp only [List.map_cons, List.mem_cons, not_or] at h
      simp only [incr, List.map_cons]
      rw [if_neg (by exact fun he => h.1 he.symm)]
      have := ih h.2
      simpa [incr] using this

theorem incr_sum (counts : List (Node × ℕ)) (page : Node)
    (hn : (counts.map Prod.fst).Nodup) (hp : page ∈ counts.map Prod.fst) :
    ((incr counts page).map Prod.snd).sum = (counts.map Prod.snd).sum + 1 := by
  induction counts with
  | nil => simp at hp
  | cons e t ih =>
      simp only [List.map_cons, List.nodup_cons] at hn
      have hcons : incr (e :: t) page =
          (if e.1 = page then (e.1, e.2 + 1) else e) :: incr t page := rfl
      rw [hcons]
      by_cases h : e.1 = page
      · have hnt : page ∉ t.map Prod.fst := h ▸ hn.1
        rw [if_pos h, incr_not_mem t page hnt]
        simp only [List.map_cons, List.sum_cons]
        omega
      · have hpt : page ∈ t.map Prod.fst := by
          rcases List.mem_cons.mp hp with h' | h'
          · exact absurd h'.symm h
          · exact h'
        rw [if_neg h]
        simp only [List.map_cons, List.sum_cons, ih hn.2 hpt]
        omega

theorem walk_sum (corpus : Corpus) (d : ℚ) (us : ℕ → ℚ)
    (hn : (keys corpus).Nodup) (hne : corpus ≠ []) :
    ∀ steps i page counts, page ∈ keys corpus →
      counts.map Prod.fst = keys corpus →
      ((walk corpus d us steps i page counts).map Prod.snd).sum =
        (counts.map Prod.snd).sum + steps := by
  intro steps
  induction steps with
  | zero => intro i page counts _ _; simp [walk]
  | succ k ih =>
      intro i page counts hpage hkeys
      simp only [walk]
      rw [ih (i + 1) _ (incr counts page)
        (choicesDraw_mem corpus page d (us i) hne)
        (by rw [keys_incr]; exact hkeys)]
      rw [incr_sum counts page (hkeys ▸ hn) (hkeys ▸ hpage)]
      omega

theorem sum_counts_zero (corpus : Corpus) :
    ((corpus.map (fun e => (e.1, (0 : ℕ)))).map Prod.snd).sum = 0 := by
  induction corpus with
  | nil => rfl
  | cons e t ih => simpa using ih

theorem sum_map_div_nat (l : List (Node × ℕ)) (c : ℚ) :
    ((l.map (fun e => (e.1, (e.2 : ℚ) / c))).map Prod.snd).sum =
      (((l.map Prod.snd).sum : ℕ) : ℚ) / c := by
  induction l with
  | nil => simp
  | cons e t ih =>
      simp only [List.map_cons, List.sum_cons, ih]
      push_cast
      rw [add_div]

/-- Claim C3: for every non-empty graph satisfying the reference
invariant and positive sample count, the sampling estimator (start page
drawn by index from the page list, each step incrementing the visit
counter of the current page, computing the transition model and drawing
the next page from it by cumulative-weight selection on the uniform
stream) returns the mapping p to visits of p divided by n over exactly
the node set, and its values sum exactly to 1. -/
theorem sample_pagerank_sum_one (corpus : Corpus) (d : ℚ) (n : ℕ) (s : ℕ)
    (us : ℕ → ℚ) (hn : (keys corpus).Nodup)
    (hsub : ∀ e ∈ corpus, e.2 ⊆ keysFinset corpus)
    (hne : corpus ≠ []) (hpos : 0 < n) :
    ∃ r, sample_pagerank corpus d n s us = some r ∧
      r.map Prod.fst = keys corpus ∧ (r.map Prod.snd).sum = 1 := by
  have hempty : corpus.isEmpty = false := by
    cases corpus with
    | nil => exact absurd rfl hne
    | cons e t => rfl
  have hklen : 0 < (keys corpus).length := by
    simpa [keys] using List.length_pos.mpr hne
  have hstart : (keys corpus).getD (s % (keys corpus).length) 0 ∈ keys corpus :=
    list_getD_mem _ _ _ (Nat.mod_lt _ hklen)
  have hkeys0 : (corpus.map (fun e => (e.1, (0 : ℕ)))).map Prod.fst =
      keys corpus := map_fst_map _ _ (fun e => rfl)
  have hwalk := walk_sum corpus d us hn hne n 0
    ((keys corpus).getD (s % (keys corpus).length) 0)
    (corpus.map (fun e => (e.1, (0 : ℕ)))) hstart hkeys0
  rw [sum_counts_zero] at hwalk
  refine ⟨(walk corpus d us n 0 ((keys corpus).getD (s % (keys corpus).length) 0)
      (corpus.map (fun e => (e.1, (0 : ℕ))))).map
      (fun e => (e.1, (e.2 : ℚ) / (n : ℚ))), ?_, ?_, ?_⟩
  · simp only [sample_pagerank, hempty, Bool.false_eq_true, if_false,
      if_neg (Nat.pos_iff_ne_zero.mp hpos)]
  · rw [map_fst_map _ (fun e : Node × ℕ => (e.1, (e.2 : ℚ) / (n : ℚ)))
      (fun e => rfl), keys_walk, hkeys0]
  · rw [sum_map_div_nat, hwalk]
    simp only [Nat.zero_add]
    exact div_self (by exact_mod_cast Nat.pos_iff_ne_zero.mp hpos)

/-- Witness for sample_pagerank_sum_one on the one-page corpus with a
self link. -/
theorem sample_pagerank_sum_one_witness :
    ((keys [(0, ({0} : Finset Node))]).Nodup ∧
     (∀ e ∈ ([(0, ({0} : Finset Node))] : Corpus),
        e.2 ⊆ keysFinset [(0, ({0} : Finset Node))]) ∧
     ([(0, ({0} : Finset Node))] : Corpus) ≠ [] ∧ 0 < 1) ∧
    (∃ r, sample_pagerank [(0, ({0} : Finset Node))] (17 / 20) 1 0
        (fun _ => 0) = some r ∧
      r.map Prod.fst = keys [(0, ({0} : Finset Node))] ∧
      (r.map Prod.snd).sum = 1) :=
  ⟨⟨by decide, by decide, by decide, by decide⟩,
   sample_pagerank_sum_one _ (17 / 20) 1 0 (fun _ => 0) (by decide)
     (by decide) (by decide) (by decide)⟩

/-! ### Mutation of the input corpus -/

/-- Counterexample to claim C4: on the one-page corpus whose only page is
dangling, the corpus value the caller holds after iterate_pagerank
returns has the outbound set of page 0 replaced by the full node set; it
is not the original input value. -/
theorem iterate_pagerank_mutates_counterexample :
    (iterate_pagerank [(0, (∅ : Finset Node))] (17 / 20) 1).map Prod.fst =
      some [(0, ({0} : Finset Node))] ∧
    some [(0, ({0} : Finset Node))] ≠
      some [(0, (∅ : Finset Node))] := by
  constructor
  · norm_num [iterate_pagerank, iterLoop, sweep, sweepConverged, newRank,
      linkTotal, normalize, keysFinset, keys, getv]
  · decide

/-- Claim C4 amended: the dangling-node normalization is performed in
place on the caller's graph: after iterate_pagerank returns, the corpus
the caller holds is the normalized corpus, in which every entry whose
outbound set was empty now carries the full node set and every other
entry is unchanged. -/
theorem iterate_pagerank_corpus_after (corpus : Corpus) (d : ℚ) (fuel : ℕ)
    (c' : Corpus) (r : RankList)
    (h : iterate_pagerank corpus d fuel = some (c', r)) :
    c' = normalize corpus ∧
    ∀ a s, (a, s) ∈ corpus →
      (a, if s = ∅ then keysFinset corpus else s) ∈ c' := by
  unfold iterate_pagerank at h
  rcases Option.map_eq_some'.mp h with ⟨r0, _, hpair⟩
  have hc : c' = normalize corpus := ((Prod.mk.injEq _ _ _ _ ▸ hpair).1).symm
  refine ⟨hc, ?_⟩
  intro a s hmem
  rw [hc]
  apply List.mem_map.mpr
  refine ⟨(a, s), hmem, ?_⟩
  by_cases hs : s = ∅ <;> simp [hs]

/-- Witness for iterate_pagerank_corpus_after at the one-page dangling
corpus. -/
theorem iterate_pagerank_corpus_after_witness :
    iterate_pagerank [(0, (∅ : Finset Node))] (17 / 20) 1 =
      some ([(0, ({0} : Finset Node))], [(0, 1)]) ∧
    ([(0, ({0} : Finset Node))] : Corpus) =
      normalize [(0, (∅ : Finset Node))] ∧
    (∀ a s, (a, s) ∈ ([(0, (∅ : Finset Node))] : Corpus) →
      (a, if s = ∅ then keysFinset [(0, (∅ : Finset Node))] else s) ∈
        ([(0, ({0} : Finset Node))] : Corpus)) :=
  ⟨by norm_num [iterate_pagerank, iterLoop, sweep, sweepConverged, newRank,
      linkTotal, normalize, keysFinset, keys, getv],
   iterate_pagerank_corpus_after [(0, (∅ : Finset Node))] (17 / 20) 1
     [(0, ({0} : Finset Node))] [(0, 1)]
     (by norm_num [iterate_pagerank, iterLoop, sweep, sweepConverged, newRank,
        linkTotal, normalize, keysFinset, keys, getv])⟩

/-! ### Behaviour on the empty graph and a zero sample count -/

/-- Counterexample to claim C6: on the graph with zero nodes the
iterative solver does not fail explicitly: it silently returns an empty
rank dict (the only failing estimator is the sampler, and no parameter
validation exists). -/
theorem iterate_pagerank_empty_counterexample :
    iterate_pagerank [] (17 / 20) 1 = some ([], []) := by
  rfl

/-- Claim C6 amended: on the graph with zero nodes sample_pagerank fails
(random.choice of an empty page list raises), but iterate_pagerank does
not fail: whatever the fuel, its first sweep vacuously converges and it
returns the empty rank dict; a zero sample count also makes
sample_pagerank fail (division by zero), and no parameter validation is
performed anywhere. -/
theorem empty_graph_failure_modes (corpus : Corpus) (d : ℚ) (n s fuel : ℕ)
    (us : ℕ → ℚ) :
    sample_pagerank [] d n s us = none ∧
    iterate_pagerank [] d (fuel + 1) = some ([], []) ∧
    sample_pagerank corpus d 0 s us = none := by
  refine ⟨rfl, ?_, ?_⟩
  · simp [iterate_pagerank, iterLoop, normalize, sweep, sweepConverged]
  · cases corpus with
    | nil => rfl
    | cons e t => simp [sample_pagerank]

/-! ### Determinism -/

theorem walk_congr (corpus : Corpus) (d : ℚ) (us us' : ℕ → ℚ) :
    ∀ steps i page counts, (∀ j, i ≤ j → j < i + steps → us j = us' j) →
      walk corpus d us steps i page counts =
        walk corpus d us' steps i page counts := by
  intro steps
  induction steps with
  | zero => intro i page counts _; rfl
  | succ k ih =>
      intro i page counts h
      simp only [walk]
      rw [h i le_rfl (by omega)]
      exact ih (i + 1) _ _ (fun j h1 h2 => h j (by omega) (by omega))

/-- Claim C8: two invocations of the iterative solver with identical
inputs return identical output, and two invocations of the sampling
estimator with identical inputs and identical seed (same start index,
and uniform streams agreeing on the n draws consumed) return identical
output: the only nondeterminism of the sampler is the draw sequence. -/
theorem estimators_deterministic (corpus : Corpus) (d : ℚ) (n s fuel : ℕ)
    (us us' : ℕ → ℚ) (h : ∀ i, i < n → us i = us' i) :
    iterate_pagerank corpus d fuel = iterate_pagerank corpus d fuel ∧
    sample_pagerank corpus d n s us = sample_pagerank corpus d n s us' := by
  refine ⟨rfl, ?_⟩
  unfold sample_pagerank
  by_cases hc : corpus.isEmpty
  · simp [hc]
  · simp only [hc, Bool.false_eq_true, if_false]
    rw [walk_congr corpus d us us' n 0 _ _ (fun j h1 h2 => h j (by omega))]

/-- Witness for estimators_deterministic with a concrete stream pair. -/
theorem estimators_deterministic_witness :
    (∀ i, i < 1 → (fun _ : ℕ => (0 : ℚ)) i = (fun _ : ℕ => (0 : ℚ)) i) ∧
    (iterate_pagerank [(0, ({0} : Finset Node))] (17 / 20) 1 =
       iterate_pagerank [(0, ({0} : Finset Node))] (17 / 20) 1 ∧
     sample_pagerank [(0, ({0} : Finset Node))] (17 / 20) 1 0
         (fun _ : ℕ => (0 : ℚ)) =
       sample_pagerank [(0, ({0} : Finset Node))] (17 / 20) 1 0
         (fun _ : ℕ => (0 : ℚ))) :=
  ⟨fun _ _ => rfl,
   estimators_deterministic [(0, ({0} : Finset Node))] (17 / 20) 1 0 1
     (fun _ => 0) (fun _ => 0) (fun _ _ => rfl)⟩

/-! ### Equivalence of the dangling-node fix -/

theorem assoc_value_unique {β : Type} (l : List (Node × β)) (a : Node)
    (b c : β) (hn : (l.map Prod.fst).Nodup) (hb : (a, b) ∈ l)
    (hc : (a, c) ∈ l) : b = c :=
  (getv_eq_of_mem l a b b hn hb).symm.trans (getv_eq_of_mem l a c b hn hc)

/-- Claim C7: for every non-empty graph with distinct keys containing a
dangling node p, the iterative solver behaves identically on the graph
and on its variant in which the outbound set of p is manually set to the
full node set. -/
theorem dangling_fix_equivalent (corpus : Corpus) (p : Node) (d : ℚ)
    (fuel : ℕ) (hn : (keys corpus).Nodup) (hne : corpus ≠ [])
    (hp : (p, (∅ : Finset Node)) ∈ corpus) :
    iterate_pagerank corpus d fuel =
      iterate_pagerank
        (corpus.map (fun e => if e.1 = p then (p, keysFinset corpus) else e))
        d fuel := by
  set G' := corpus.map (fun e => if e.1 = p then (p, keysFinset corpus) else e)
    with hG'
  have hfst : ∀ e : Node × Finset Node,
      ((if e.1 = p then (p, keysFinset corpus) else e) : Node × Finset Node).1 =
        e.1 := by
    intro e; by_cases he : e.1 = p <;> simp [he]
  have hkeys : keys G' = keys corpus := map_fst_map corpus _ hfst
  have hlen : G'.length = corpus.length := by simp [hG']
  have hKF : keysFinset G' = keysFinset corpus := by
    unfold keysFinset; rw [hkeys]
  have hpmem : p ∈ keysFinset corpus := by
    simp only [keysFinset, List.mem_toFinset, keys]
    exact List.mem_map.mpr ⟨(p, ∅), hp, rfl⟩
  have hKne : keysFinset corpus ≠ ∅ := by
    intro h0; rw [h0] at hpmem; simp at hpmem
  have hnorm : normalize G' = normalize corpus := by
    unfold normalize
    rw [hKF, hG', List.map_map]
    apply List.map_congr_left
    intro e he
    by_cases hep : e.1 = p
    · have hmem' : (p, e.2) ∈ corpus := by
        have : e = (p, e.2) := by
          rw [← hep]
        rw [← this]
        exact he
      have he2 : e.2 = ∅ := assoc_value_unique corpus p e.2 ∅ hn hmem' hp
      simp [hep, he2, hKne]
    · simp [hep]
  have hinit : G'.map (fun e => (e.1, 1 / ((corpus.length : ℕ) : ℚ))) =
      corpus.map (fun e => (e.1, 1 / ((corpus.length : ℕ) : ℚ))) := by
    rw [hG', List.map_map]
    apply List.map_congr_left
    intro e _
    by_cases hep : e.1 = p <;> simp [hep]
  simp only [iterate_pagerank]
  rw [hnorm, hlen, hinit]

/-- Witness for dangling_fix_equivalent on a two-page corpus with one
dangling page. -/
theorem dangling_fix_equivalent_witness :
    ((keys [(0, (∅ : Finset Node)), (1, ({0} : Finset Node))]).Nodup ∧
     ([(0, (∅ : Finset Node)), (1, ({0} : Finset Node))] : Corpus) ≠ [] ∧
     ((0 : Node), (∅ : Finset Node)) ∈
       ([(0, (∅ : Finset Node)), (1, ({0} : Finset Node))] : Corpus)) ∧
    iterate_pagerank [(0, (∅ : Finset Node)), (1, ({0} : Finset Node))]
        (17 / 20) 5 =
      iterate_pagerank
        (([(0, (∅ : Finset Node)), (1, ({0} : Finset Node))] : Corpus).map
          (fun e => if e.1 = 0 then
            (0, keysFinset [(0, (∅ : Finset Node)), (1, ({0} : Finset Node))])
            else e))
        (17 / 20) 5 :=
  ⟨⟨by decide, by decide, by decide⟩,
   dangling_fix_equivalent _ 0 (17 / 20) 5 (by decide) (by decide) (by decide)⟩

/-! ### The single isolated node -/

theorem walk_single (d : ℚ) (us : ℕ → ℚ) :
    ∀ steps i c, walk [(0, (∅ : Finset Node))] d us steps i 0 [(0, c)] =
      [(0, c + steps)] := by
  intro steps
  induction steps with
  | zero => intro i c; simp [walk]
  | succ k ih =>
      intro i c
      simp only [walk]
      have hincr : incr [(0, c)] 0 = [(0, c + 1)] := by simp [incr]
      have hdraw : choicesDraw
          (transition_model [(0, (∅ : Finset Node))] 0 d) (us i) = 0 := by
        simp [choicesDraw, transition_model, weightedIndex, cumWeights, getv]
      rw [hincr, hdraw, ih (i + 1) (c + 1)]
      have harith : c + 1 + k = c + (k + 1) := by omega
      rw [harith]

/-- Claim C9: on the single-node graph with a dangling node, the sampler
returns rank 1 for every positive sample count, every seed, every draw
stream and every damping factor in the unit interval, and the iterative
solver returns rank 1 for every damping factor in the unit interval
(whenever given fuel at all to run its loop). -/
theorem single_isolated_node (d : ℚ) (n s fuel : ℕ) (us : ℕ → ℚ)
    (hd0 : 0 ≤ d) (hd1 : d ≤ 1) (hpos : 0 < n) (hfuel : 0 < fuel) :
    sample_pagerank [(0, (∅ : Finset Node))] d n s us = some [(0, 1)] ∧
    iterate_pagerank [(0, (∅ : Finset Node))] d fuel =
      some ([(0, ({0} : Finset Node))], [(0, 1)]) := by
  have hne : n ≠ 0 := Nat.pos_iff_ne_zero.mp hpos
  constructor
  · simp only [sample_pagerank, List.isEmpty_cons, Bool.false_eq_true,
      if_false, keys, List.map_cons, List.map_nil, List.length_cons,
      List.length_nil, Nat.zero_add, Nat.mod_one, List.getD_cons_zero]
    rw [walk_single d us n 0 0, if_neg hne]
    simp [Nat.zero_add, div_self, Nat.cast_ne_zero, hne]
  · obtain ⟨m, rfl⟩ : ∃ m, fuel = m + 1 := ⟨fuel - 1, by omega⟩
    have hnormc : normalize [(0, (∅ : Finset Node))] =
        [(0, ({0} : Finset Node))] := by decide
    have hNR : newRank [(0, ({0} : Finset Node))] 1 d [(0, (1 : ℚ))] 0 = 1 := by
      simp [newRank, linkTotal, getv]
    have hsweep : sweep [(0, ({0} : Finset Node))] 1 d [(0, (1 : ℚ))] =
        [(0, 1)] := by
      simp only [sweep, List.map_cons, List.map_nil]
      rw [hNR]
    have hconv : sweepConverged [(0, ({0} : Finset Node))] 1 d
        [(0, (1 : ℚ))] = true := by
      simp only [sweepConverged, List.all_cons, List.all_nil]
      rw [hNR]
      norm_num [getv]
    simp only [iterate_pagerank, hnormc]
    norm_num
    simp only [iterLoop, hconv, if_true]
    rw [hsweep]

/-- Witness for single_isolated_node at a concrete sample count, seed,
stream, fuel and damping factor. -/
theorem single_isolated_node_witness :
    ((0 : ℚ) ≤ 17 / 20 ∧ (17 / 20 : ℚ) ≤ 1 ∧ 0 < 2 ∧ 0 < 1) ∧
    (sample_pagerank [(0, (∅ : Finset Node))] (17 / 20) 2 3
        (fun _ => 1 / 3) = some [(0, 1)] ∧
     iterate_pagerank [(0, (∅ : Finset Node))] (17 / 20) 1 =
       some ([(0, ({0} : Finset Node))], [(0, 1)])) :=
  ⟨⟨by norm_num, by norm_num, by decide, by decide⟩,
   single_isolated_node (17 / 20) 2 3 1 (fun _ => 1 / 3) (by norm_num)
     (by norm_num) (by decide) (by decide)⟩

/-! ### Key sets and signs of the returned rank dicts -/

/-- Counterexample to claim C10: the claim quantifies over every damping
factor, but with damping factor 2 the iterative solver terminates and
returns a negative rank value: on the two-page corpus where both pages
link only to page 1, page 0 converges to rank -1/2. -/
theorem iterate_pagerank_negative_counterexample :
    iterate_pagerank [(0, ({1} : Finset Node)), (1, ({1} : Finset Node))] 2 2 =
      some ([(0, ({1} : Finset Node)), (1, ({1} : Finset Node))],
        [(0, -(1 / 2)), (1, 3 / 2)]) ∧
    (-(1 / 2) : ℚ) < 0 := by
  constructor
  · norm_num [iterate_pagerank, iterLoop, sweep, sweepConverged, newRank,
      linkTotal, normalize, keysFinset, keys, getv, abs, max_def]
  · norm_num

theorem getv_nonneg (pr : RankList) (q : Node) (h : ∀ e ∈ pr, 0 ≤ e.2) :
    0 ≤ getv pr q 0 := by
  rcases getv_default_or_mem pr q 0 with h0 | hmem
  · rw [h0]
  · exact h _ hmem

theorem rankSeq_nonneg (corpus : Corpus) (d : ℚ) (hd0 : 0 ≤ d) (hd1 : d ≤ 1) :
    ∀ m, ∀ e ∈ rankSeq corpus d m, 0 ≤ e.2 := by
  intro m
  induction m with
  | zero =>
      intro e he
      rcases List.mem_map.mp he with ⟨x, _, rfl⟩
      positivity
  | succ k ih =>
      intro e he
      rcases List.mem_map.mp he with ⟨x, _, rfl⟩
      show 0 ≤ newRank (normalize corpus) corpus.length d
        (rankSeq corpus d k) x.1
      unfold newRank
      apply add_nonneg
      · exact div_nonneg (by linarith) (Nat.cast_nonneg _)
      · apply mul_nonneg hd0
        unfold linkTotal
        apply List.sum_nonneg
        intro v hv
        rcases List.mem_map.mp hv with ⟨y, _, rfl⟩
        by_cases hy : x.1 ∈ y.2
        · simp only [if_pos hy]
          exact div_nonneg (getv_nonneg _ _ ih) (Nat.cast_nonneg _)
        · simp [hy]

/-- Claim C10 amended: whatever the damping factor, both estimators
return a dict whose key list is exactly the node list of the graph, and
every value returned by the sampler is non-negative; the values returned
by the iterative solver are non-negative provided the damping factor
lies in the unit interval (as the counterexample with damping factor 2
shows, the solver needs that bound). -/
theorem estimators_keys_exact_nonneg (corpus : Corpus) (d : ℚ)
    (n s fuel : ℕ) (us : ℕ → ℚ) (r : RankList) (c' : Corpus)
    (r' : RankList) :
    (sample_pagerank corpus d n s us = some r →
      r.map Prod.fst = keys corpus ∧ ∀ e ∈ r, 0 ≤ e.2) ∧
    (iterate_pagerank corpus d fuel = some (c', r') →
      r'.map Prod.fst = keys corpus ∧
        (0 ≤ d → d ≤ 1 → ∀ e ∈ r', 0 ≤ e.2)) := by
  constructor
  · intro hs
    simp only [sample_pagerank] at hs
    by_cases hc : corpus.isEmpty
    · rw [if_pos hc] at hs
      cases hs
    · rw [if_neg hc] at hs
      by_cases hn0 : n = 0
      · rw [if_pos hn0] at hs
        cases hs
      · rw [if_neg hn0] at hs
        have hr : r = (walk corpus d us n 0
            ((keys corpus).getD (s % (keys corpus).length) 0)
            (corpus.map (fun e => (e.1, (0 : ℕ))))).map
            (fun e => (e.1, (e.2 : ℚ) / (n : ℚ))) :=
          (Option.some.injEq _ _ ▸ hs).symm
        constructor
        · rw [hr, map_fst_map _ (fun e : Node × ℕ =>
            (e.1, (e.2 : ℚ) / (n : ℚ))) (fun e => rfl), keys_walk]
          exact map_fst_map _ _ (fun e => rfl)
        · intro e he
          rw [hr] at he
          rcases List.mem_map.mp he with ⟨x, _, rfl⟩
          exact div_nonneg (Nat.cast_nonneg _) (Nat.cast_nonneg _)
  · intro hi
    simp only [iterate_pagerank] at hi
    rcases Option.map_eq_some'.mp hi with ⟨r0, hloop, hpair⟩
    have hr' : r0 = r' := (Prod.mk.injEq _ _ _ _ ▸ hpair).2
    rcases iterLoop_some _ _ _ _ _ _ hloop with ⟨k, _, hr0, _, _⟩
    rw [← rankSeq_eq_iterate corpus d (k + 1)] at hr0
    have hrr : r' = rankSeq corpus d (k + 1) := hr' ▸ hr0
    rw [hrr]
    exact ⟨keys_rankSeq corpus d (k + 1),
      fun hd0 hd1 => rankSeq_nonneg corpus d hd0 hd1 (k + 1)⟩

/-- Witness for estimators_keys_exact_nonneg at the one-page corpus with
a self link, with the conclusion implications also discharged at that
input. -/
theorem estimators_keys_exact_nonneg_witness :
    ((sample_pagerank [(0, ({0} : Finset Node))] (17 / 20) 1 0 (fun _ => 0) =
        some [(0, (1 : ℚ))] →
      ([(0, (1 : ℚ))] : RankList).map Prod.fst =
          keys [(0, ({0} : Finset Node))] ∧
        ∀ e ∈ ([(0, (1 : ℚ))] : RankList), 0 ≤ e.2) ∧
     (iterate_pagerank [(0, ({0} : Finset Node))] (17 / 20) 1 =
        some ([(0, ({0} : Finset Node))], [(0, (1 : ℚ))]) →
      ([(0, (1 : ℚ))] : RankList).map Prod.fst =
          keys [(0, ({0} : Finset Node))] ∧
        ((0 : ℚ) ≤ 17 / 20 → (17 / 20 : ℚ) ≤ 1 →
          ∀ e ∈ ([(0, (1 : ℚ))] : RankList), 0 ≤ e.2))) ∧
    (([(0, (1 : ℚ))] : RankList).map Prod.fst =
        keys [(0, ({0} : Finset Node))] ∧
      (∀ e ∈ ([(0, (1 : ℚ))] : RankList), 0 ≤ e.2) ∧
     ([(0, (1 : ℚ))] : RankList).map Prod.fst =
        keys [(0, ({0} : Finset Node))] ∧
      ∀ e ∈ ([(0, (1 : ℚ))] : RankList), 0 ≤ e.2) := by
  have h := estimators_keys_exact_nonneg [(0, ({0} : Finset Node))]
    (17 / 20) 1 0 1 (fun _ => 0) [(0, (1 : ℚ))] [(0, ({0} : Finset Node))]
    [(0, (1 : ℚ))]
  have h1 := h.1 (by norm_num [sample_pagerank, walk, incr, choicesDraw,
    weightedIndex, cumWeights, transition_model, keys, getv])
  have h2 := h.2 (by norm_num [iterate_pagerank, iterLoop, sweep,
    sweepConverged, newRank, linkTotal, normalize, keysFinset, keys, getv])
  exact ⟨h, h1.1, h1.2, h2.1, h2.2 (by norm_num) (by norm_num)⟩

end Pagerank
